import Mathlib

/-!
Shallow embedding of `combine_m3u.py`: an aggregator that fetches several
M3U playlists, parses them with a one-variable state machine (a pending
`#EXTINF` metadata line), buckets the resulting (metadata, URI) pairs into
a pinned slot and a group map keyed by `group-title`, and serializes the
result with a `#EXTM3U` header, section-marker comment lines and one
trailing line break.

Python strings are modelled as `List Char`; a fetched document is a list
of lines (as produced by `str.splitlines`, hence newline-free); a failed
fetch contributes the empty list of lines.
-/

/-- A Python string, modelled as its list of characters. -/
abbrev PyStr := List Char

/-- One accepted playlist record: the `#EXTINF` line and the stream URI line. -/
abbrev StreamPair := PyStr × PyStr

/-- Characters stripped by Python `str.strip()` (ASCII whitespace). -/
def pySpace (c : Char) : Bool :=
  c = ' ' || c = '\t' || c = '\n' || c = '\r' || c = Char.ofNat 11 || c = Char.ofNat 12

/-- Python `str.strip()`: drop leading and trailing whitespace. -/
def pyStrip (s : PyStr) : PyStr :=
  ((s.dropWhile pySpace).reverse.dropWhile pySpace).reverse

/-- Python `str.startswith(pat)` on character lists. -/
def startsL : PyStr → PyStr → Bool
  | [], _ => true
  | _ :: _, [] => false
  | a :: ps, b :: ss => a = b && startsL ps ss

/-- The `#EXTINF` tag (line 90 of the source). -/
def extinfTag : PyStr := ("#EXTINF".data)

/-- The `#EXT` directive test used at line 118 of the source. -/
def extTag : PyStr := ("#EXT".data)

/-- The document header tag written at line 123 of the source. -/
def hdrTag : PyStr := ("#EXTM3U".data)

/-- The `PINNED_CHANNEL_NAME` constant of the source. -/
def pinName : PyStr := ("Colors Marathi HD".data)

/-- The `DEFAULT_GROUP_TITLE` constant of the source. -/
def defaultGroup : PyStr := ("ZZ - Unsorted".data)

/-- The tuple test `stripped_line.startswith(('http://', 'https://', 'rtsp://'))`
(line 93 of the source). -/
def urlStart (s : PyStr) : Bool :=
  startsL ("http://".data) s || startsL ("https://".data) s || startsL ("rtsp://".data) s

/-- Python `s.split(',', 1)`: the remainder after the first comma, if any. -/
def afterComma : PyStr → Option PyStr
  | [] => none
  | ',' :: r => some r
  | _ :: r => afterComma r

/-- The function `extract_channel_name`: the display name after the first comma of the
`#EXTINF` line, stripped; empty when there is no comma. -/
def extract_channel_name (e : PyStr) : PyStr :=
  match afterComma e with
  | some r => pyStrip r
  | none => []

/-- The remainder of `s` after the leftmost occurrence of `pat`
(the scan performed by `re.search`). -/
def findAfter (pat : PyStr) : PyStr → Option PyStr
  | [] => if startsL pat [] then some [] else none
  | c :: t => if startsL pat (c :: t) then some ((c :: t).drop pat.length) else findAfter pat t

/-- Characters before the next double quote, or `none` when no quote follows
(the `[^"]*"` part of the regex at line 38 of the source). -/
def upToQuote : PyStr → Option PyStr
  | [] => none
  | '"' :: _ => some []
  | c :: t => (upToQuote t).map (c :: ·)

/-- The function `extract_group_title`: the content of the leftmost `group-title="..."`
attribute, stripped; the default group when absent or blank. -/
def extract_group_title (e : PyStr) : PyStr :=
  match findAfter ("group-title=\"".data) e with
  | none => defaultGroup
  | some rest =>
    match upToQuote rest with
    | none => defaultGroup
    | some content =>
      let t := pyStrip content
      if t = [] then defaultGroup else t

/-- The accumulated merge state of `main`: the insertion-ordered group
dictionary, the pinned-stream list and the stream counter. -/
structure MergeState where
  grouped : List (PyStr × List StreamPair)
  pinned : List StreamPair
  total : Nat
deriving DecidableEq

/-- The state at the top of `main`: no groups, no pinned stream, zero streams. -/
def initState : MergeState := ⟨[], [], 0⟩

/-- The update `grouped_streams[group].append(pair)` on an insertion-ordered dictionary:
append to an existing key, or add the key at the end. -/
def addToGroup (gs : List (PyStr × List StreamPair)) (g : PyStr) (p : StreamPair) :
    List (PyStr × List StreamPair) :=
  match gs with
  | [] => [(g, [p])]
  | (k, l) :: rest => if k = g then (k, l ++ [p]) :: rest else (k, l) :: addToGroup rest g p

/-- Dictionary lookup `grouped_streams[g]` (empty for an absent key). -/
def lookupG (gs : List (PyStr × List StreamPair)) (g : PyStr) : List StreamPair :=
  match gs.find? (fun kv => kv.1 = g) with
  | some kv => kv.2
  | none => []

/-- The close-out block of lines 96-112 of the source: pin the pair when the
display name matches `PINNED_CHANNEL_NAME` and nothing is pinned yet,
otherwise file it under its extracted group; count it either way. -/
def closeOut (st : MergeState) (e uri : PyStr) : MergeState :=
  if extract_channel_name e = pinName && st.pinned.isEmpty then
    { st with pinned := st.pinned ++ [(e, uri)], total := st.total + 1 }
  else
    { st with grouped := addToGroup st.grouped (extract_group_title e) (e, uri),
              total := st.total + 1 }

/-- The close-out on a pair, the unit step of bucketing. -/
def closeOutPair (st : MergeState) (p : StreamPair) : MergeState :=
  closeOut st p.1 p.2

/-- Bucketing a whole arrival sequence into the merge state. -/
def bucketAll (st : MergeState) (ps : List StreamPair) : MergeState :=
  ps.foldl closeOutPair st

/-- The body of the line loop (lines 87-119 of the source), carrying the
merge state and the pending `current_extinf`. -/
def lineStep (acc : MergeState × Option PyStr) (line : PyStr) : MergeState × Option PyStr :=
  let st := acc.1
  let stripped := pyStrip line
  if startsL extinfTag stripped then (st, some stripped)
  else
    match acc.2 with
    | some e =>
      if urlStart stripped then (closeOut st e stripped, none)
      else if decide (stripped ≠ []) && !startsL extTag stripped then (st, none)
      else (st, some e)
    | none => (st, none)

/-- Processing one fetched document: run the line loop with a fresh
`current_extinf = None` (lines 85-119 of the source). -/
def processSource (st : MergeState) (lines : List PyStr) : MergeState :=
  (lines.foldl lineStep (st, none)).1

/-- The whole source loop of `main` (line 77): fold every fetched document
into the merge state. -/
def runSources (srcs : List (List PyStr)) : MergeState :=
  srcs.foldl processSource initState

/-- The same line state machine, recording the accepted (metadata, URI)
pairs in arrival order instead of bucketing them. -/
def parseLines (cur : Option PyStr) : List PyStr → List StreamPair
  | [] => []
  | line :: rest =>
    let stripped := pyStrip line
    if startsL extinfTag stripped then parseLines (some stripped) rest
    else
      match cur with
      | some e =>
        if urlStart stripped then (e, stripped) :: parseLines none rest
        else if decide (stripped ≠ []) && !startsL extTag stripped then parseLines none rest
        else parseLines (some e) rest
      | none => parseLines none rest

/-- The arrival-ordered accepted pairs of one document. -/
def parseSource (lines : List PyStr) : List StreamPair :=
  parseLines none lines

/-- The arrival-ordered accepted pairs of a whole run, source by source. -/
def arrivals (srcs : List (List PyStr)) : List StreamPair :=
  srcs.flatMap parseSource

/-- Test for the pinned display name. -/
def isPinPair (p : StreamPair) : Bool :=
  extract_channel_name p.1 = pinName

/-- The pinned-stream list an arrival sequence produces: the first pair whose
display name matches, if any. -/
def firstPin (A : List StreamPair) : List StreamPair :=
  match A.find? isPinPair with
  | some p => [p]
  | none => []

/-- The arrivals that go to the group dictionary: everything except the first
pin match. -/
def residualOf (A : List StreamPair) : List StreamPair :=
  A.eraseP isPinPair

/-- Lexicographic (code-point) comparison of Python strings, the order used
by `sorted(grouped_streams.keys())`. -/
def listLe : PyStr → PyStr → Bool
  | [], _ => true
  | _ :: _, [] => false
  | a :: as, b :: bs => if a = b then listLe as bs else decide (a < b)

/-- Insert into a `listLe`-sorted list. -/
def insertSorted (x : PyStr) : List PyStr → List PyStr
  | [] => [x]
  | y :: ys => if listLe x y then x :: y :: ys else y :: insertSorted x ys

/-- Python `sorted(...)` on a list of strings (insertion sort, ascending). -/
def sortStr (l : List PyStr) : List PyStr :=
  l.foldr insertSorted []

/-- Decimal digit character. -/
def digitChar (n : Nat) : Char := Char.ofNat (48 + n)

/-- Decimal digits, peeled least-significant first; the fuel bounds the digit
count (any fuel above the digit count gives the same result). -/
def natStrGo : Nat → Nat → PyStr
  | 0, _ => []
  | fuel + 1, n => if n < 10 then [digitChar n] else natStrGo fuel (n / 10) ++ [digitChar (n % 10)]

/-- Python `str(n)` for a natural number. -/
def natStr (n : Nat) : PyStr := natStrGo (n + 1) n

/-- The section-marker string of line 139 of the source
(`\n# --- GROUP START: {g} ({n} Streams) ---`). -/
def groupMarker (g : PyStr) (n : Nat) : PyStr :=
  ("\n# --- GROUP START: ".data) ++ g ++ (" (".data) ++ natStr n ++ (" Streams) ---".data)

/-- The pinned-section marker string of line 127 of the source. -/
def pinMarker : PyStr := ("\n# --- PINNED TOP CHANNEL ---".data)

/-- The `final_output` list built at lines 122-143 of the source: the header,
the pinned block, then each group (keys sorted) with its marker. -/
def finalOutput (st : MergeState) : List PyStr :=
  hdrTag ::
    ((match st.pinned with
      | [] => []
      | (e, u) :: _ => [pinMarker, e, u])
      ++ (sortStr (st.grouped.map Prod.fst)).flatMap (fun g =>
          groupMarker g (lookupG st.grouped g).length
            :: (lookupG st.grouped g).flatMap (fun p => [p.1, p.2])))

/-- Python `'\n'.join(parts)`. -/
def pyJoinNl : List PyStr → PyStr
  | [] => []
  | [p] => p
  | p :: ps => p ++ '\n' :: pyJoinNl ps

/-- The text written at line 148 of the source: the joined parts plus one
trailing line break. -/
def documentOf (st : MergeState) : PyStr :=
  pyJoinNl (finalOutput st) ++ ['\n']

/-- Split a character list at every line break (the line structure of the
written document). -/
def splitNlL : PyStr → List PyStr
  | [] => [[]]
  | c :: t =>
    if c = '\n' then [] :: splitNlL t
    else
      match splitNlL t with
      | [] => [[c]]
      | h :: r => (c :: h) :: r

/-- The lines of the written document. -/
def docLines (st : MergeState) : List PyStr :=
  splitNlL (documentOf st)

/-- The write gate of lines 146-158 of the source: the document is produced
only when at least one stream was processed. -/
def writeOutput (srcs : List (List PyStr)) : Option PyStr :=
  let st := runSources srcs
  if st.total > 0 then some (documentOf st) else none

/-- The (metadata, URI) pairs in final output order: pinned first, then the
groups with sorted labels, each in stored order. -/
def outputPairs (st : MergeState) : List StreamPair :=
  st.pinned ++ (sortStr (st.grouped.map Prod.fst)).flatMap (fun g => lookupG st.grouped g)

/-- The document's line structure spelled out line by line: header; optional
blank line, pinned marker, pinned metadata and URI; per sorted group a blank
line, the group marker, and the group's metadata/URI lines; and the empty
final segment produced by the single trailing line break. -/
def docLinesSpec (st : MergeState) : List PyStr :=
  (hdrTag :: ((match st.pinned with
      | [] => []
      | (e, u) :: _ => [[], pinMarker.drop 1, e, u])
      ++ (sortStr (st.grouped.map Prod.fst)).flatMap (fun g =>
          [[], (groupMarker g (lookupG st.grouped g).length).drop 1]
            ++ (lookupG st.grouped g).flatMap (fun p => [p.1, p.2]))))
    ++ [[]]

/-! Section: Example inputs -/

/-- One source carrying the same stream URI under two metadata lines. -/
def exDupUri : List (List PyStr) :=
  [[("#EXTINF:-1,A".data), ("http://x/1".data), ("#EXTINF:-1,B".data), ("http://x/1".data)]]

/-- One source with a header and a single entry. -/
def exOneEntry : List (List PyStr) :=
  [[("#EXTM3U".data), ("#EXTINF:-1,A".data), ("http://x/1".data)]]

/-- One source with two entries of the same group whose display names arrive
in anti-alphabetical order. -/
def exNewsGroup : List (List PyStr) :=
  [[("#EXTINF:-1 group-title=\"News\",B".data), ("http://x/1".data),
    ("#EXTINF:-1 group-title=\"News\",A".data), ("http://x/2".data)]]

/-- One source with a player-option directive between metadata and URI. -/
def exDirective : List (List PyStr) :=
  [[("#EXTINF:-1,A".data), ("#EXTVLCOPT:x=1".data), ("http://x/1".data)]]

/-- One source consisting of a single bare URI line. -/
def exBareUri : List (List PyStr) := [[("http://x/1".data)]]

/-- One source whose stream location is a local path. -/
def exLocalPath : List (List PyStr) :=
  [[("#EXTINF:-1,A".data), ("/videos/file.ts".data)]]

/-- One source matching the pinned display name twice with different URIs. -/
def exTwoPins : List (List PyStr) :=
  [[("#EXTINF:-1,Colors Marathi HD".data), ("http://x/1".data),
    ("#EXTINF:-1,Colors Marathi HD".data), ("http://x/2".data)]]

/-! Section: Basic facts about `startsL` -/

theorem startsL_head {a : Char} {p s : PyStr} (h : startsL (a :: p) s = true) :
    ∃ t, s = a :: t := by
  cases s with
  | nil => simp [startsL] at h
  | cons b t =>
    simp only [startsL, Bool.and_eq_true, decide_eq_true_eq] at h
    exact ⟨t, by rw [h.1]⟩

theorem startsL_append {p q s : PyStr} (h : startsL (p ++ q) s = true) :
    startsL p s = true := by
  induction p generalizing s with
  | nil => rfl
  | cons a p ih =>
    cases s with
    | nil => simp [startsL] at h
    | cons b t =>
      simp only [List.cons_append, startsL, Bool.and_eq_true] at h ⊢
      exact ⟨h.1, ih h.2⟩

theorem startsL_take {p s : PyStr} (h : startsL p s = true) : s.take p.length = p := by
  induction p generalizing s with
  | nil => rfl
  | cons a p ih =>
    cases s with
    | nil => simp [startsL] at h
    | cons b t =>
      simp only [startsL, Bool.and_eq_true, decide_eq_true_eq] at h
      simp [List.take, ih h.2, h.1]

theorem startsL_unique {p q s : PyStr} (hp : startsL p s = true) (hq : startsL q s = true)
    (hl : p.length = q.length) : p = q :=
  calc p = s.take p.length := (startsL_take hp).symm
    _ = s.take q.length := by rw [hl]
    _ = q := startsL_take hq

theorem startsL_headOpt {p s : PyStr} (hp : p ≠ []) (h : startsL p s = true) :
    s.head? = p.head? := by
  cases p with
  | nil => exact absurd rfl hp
  | cons a t =>
    cases s with
    | nil => simp [startsL] at h
    | cons b u =>
      simp only [startsL, Bool.and_eq_true, decide_eq_true_eq] at h
      simp [h.1]

theorem head_clash {s p q : PyStr} (hp : p ≠ []) (hq : q ≠ []) (hne : p.head? ≠ q.head?)
    (h1 : startsL p s = true) : startsL q s = false := by
  by_contra hc
  rw [Bool.not_eq_false] at hc
  exact hne ((startsL_headOpt hp h1).symm.trans (startsL_headOpt hq hc))

theorem startsL_extinf_ext {s : PyStr} (h : startsL extinfTag s = true) :
    startsL extTag s = true := by
  have he : extinfTag = extTag ++ ("INF".data) := by decide
  exact startsL_append (he ▸ h)

theorem urlStart_not_extinf {s : PyStr} (h : urlStart s = true) :
    startsL extinfTag s = false := by
  simp only [urlStart, Bool.or_eq_true] at h
  rcases h with (h | h) | h
  · exact head_clash (by decide) (by decide) (by decide) h
  · exact head_clash (by decide) (by decide) (by decide) h
  · exact head_clash (by decide) (by decide) (by decide) h

theorem extTag_not_url {s : PyStr} (h : startsL extTag s = true) : urlStart s = false := by
  have a1 := head_clash (q := ("http://".data)) (by decide) (by decide) (by decide) h
  have a2 := head_clash (q := ("https://".data)) (by decide) (by decide) (by decide) h
  have a3 := head_clash (q := ("rtsp://".data)) (by decide) (by decide) (by decide) h
  simp [urlStart, a1, a2, a3]

/-! Section: Claims C4, C5, C6, C7: the line state machine -/

/-- C4 (amended): a directive line beginning with `#EXT` that is not an
`#EXTINF` line is skipped entirely by the loop body — the merge state and the
pending metadata are unchanged, and the line is stored nowhere (so it can
never be emitted); the source keeps no `extraDirectives` at all. -/
theorem c4_ext_directive_skipped (st : MergeState) (cur : Option PyStr) (line : PyStr)
    (hext : startsL extTag (pyStrip line) = true)
    (hnin : startsL extinfTag (pyStrip line) = false) :
    lineStep (st, cur) line = (st, cur) := by
  have hurl : urlStart (pyStrip line) = false := extTag_not_url hext
  cases cur with
  | none => simp [lineStep, hnin, hurl]
  | some e => simp [lineStep, hnin, hurl, hext]

/-- C4 counterexample to the claim as stated: with a `#EXTVLCOPT` directive
between the metadata line and the URI, the Entry is emitted without the
directive, and the directive line appears nowhere in the output document. -/
theorem c4_directive_counterexample :
    arrivals exDirective = [(("#EXTINF:-1,A".data), ("http://x/1".data))] ∧
      ("#EXTVLCOPT:x=1".data) ∉ docLines (runSources exDirective) := by
  decide

/-- C4 witness: the skip theorem at a concrete directive line. -/
theorem c4_ext_directive_skipped_witness :
    lineStep (initState, some ("#EXTINF:-1,A".data)) ("#EXTVLCOPT:x=1".data)
      = (initState, some ("#EXTINF:-1,A".data)) :=
  c4_ext_directive_skipped initState (some (("#EXTINF:-1,A").data)) (("#EXTVLCOPT:x=1").data)
    (by decide) (by decide)

/-- C5: a metadata line immediately followed by another metadata line
contributes nothing — processing `l1 :: l2 :: rest` from any state equals
processing `l2 :: rest`, because the second `#EXTINF` line overwrites the
first as pending metadata. -/
theorem c5_metadata_overwrite (st : MergeState) (cur : Option PyStr) (l1 l2 : PyStr)
    (rest : List PyStr) (h1 : startsL extinfTag (pyStrip l1) = true)
    (h2 : startsL extinfTag (pyStrip l2) = true) :
    (l1 :: l2 :: rest).foldl lineStep (st, cur) = (l2 :: rest).foldl lineStep (st, cur) := by
  simp only [List.foldl_cons, lineStep, h1, h2, if_true]

/-- C5 witness: the overwrite theorem at concrete back-to-back metadata lines. -/
theorem c5_metadata_overwrite_witness :
    ([("#EXTINF:-1,X".data), ("#EXTINF:-1,Y".data), ("http://x/9".data)]).foldl lineStep
        (initState, none)
      = ([("#EXTINF:-1,Y".data), ("http://x/9".data)]).foldl lineStep (initState, none) :=
  c5_metadata_overwrite initState none (("#EXTINF:-1,X").data) (("#EXTINF:-1,Y").data)
    [("http://x/9".data)] (by decide) (by decide)

/-- C6 (amended): a URI line that arrives while no pending metadata is set is
discarded — the loop body leaves the state unchanged and emits nothing; there
is no accept-bare-URI behavior and no configuration option for one. -/
theorem c6_bare_uri_discarded (st : MergeState) (line : PyStr)
    (hurl : urlStart (pyStrip line) = true) :
    lineStep (st, none) line = (st, none) := by
  simp [lineStep, urlStart_not_extinf hurl]

/-- C6 counterexample to the claim as stated: a source consisting of one bare
URI line yields no Entry at all and no output document. -/
theorem c6_bare_uri_counterexample :
    arrivals exBareUri = [] ∧ writeOutput exBareUri = none := by
  decide

/-- C6 witness: the discard theorem at a concrete bare URI line. -/
theorem c6_bare_uri_discarded_witness :
    lineStep (initState, none) ("http://x/1".data) = (initState, none) :=
  c6_bare_uri_discarded initState (("http://x/1").data) (by decide)

/-- C7 (amended): with pending metadata set, a line closes out an Entry
exactly when it begins with `http://`, `https://` or `rtsp://`; any other
non-empty line that does not begin with `#EXT` — a local path in particular —
clears the pending metadata and emits nothing. -/
theorem c7_uri_close_out (st : MergeState) (e line : PyStr) :
    (urlStart (pyStrip line) = true →
      lineStep (st, some e) line = (closeOut st e (pyStrip line), none)) ∧
    (pyStrip line ≠ [] → startsL extTag (pyStrip line) = false →
      urlStart (pyStrip line) = false → lineStep (st, some e) line = (st, none)) := by
  constructor
  · intro hurl
    simp [lineStep, urlStart_not_extinf hurl, hurl]
  · intro hne hext hurl
    have hnin : startsL extinfTag (pyStrip line) = false := by
      by_contra hc
      rw [Bool.not_eq_false] at hc
      rw [startsL_extinf_ext hc] at hext
      simp at hext
    simp [lineStep, hnin, hurl, hext, hne]

/-- C7 counterexample to the claim as stated: a local-path stream location
is rejected, so a metadata line followed by a local path yields no Entry. -/
theorem c7_local_path_counterexample :
    arrivals exLocalPath = [] ∧ writeOutput exLocalPath = none := by
  decide

/-- C7 witness: the close-out theorem at a concrete local path (discarded)
and at a concrete HTTP URI (accepted). -/
theorem c7_uri_close_out_witness :
    lineStep (initState, some ("#EXTINF:-1,A".data)) ("/videos/file.ts".data)
      = (initState, none) ∧
    lineStep (initState, some ("#EXTINF:-1,A".data)) ("http://x/1".data)
      = (closeOut initState ("#EXTINF:-1,A".data) (pyStrip ("http://x/1".data)), none) :=
  ⟨(c7_uri_close_out initState (("#EXTINF:-1,A").data) (("/videos/file.ts").data)).2
      (by decide) (by decide) (by decide),
   (c7_uri_close_out initState (("#EXTINF:-1,A").data) (("http://x/1").data)).1 (by decide)⟩

/-! Section: The bucketed run is the bucketing of the arrival sequence -/

theorem foldl_lineStep_fst (lines : List PyStr) :
    ∀ (st : MergeState) (cur : Option PyStr),
      (lines.foldl lineStep (st, cur)).1 = bucketAll st (parseLines cur lines) := by
  induction lines with
  | nil => intro st cur; rfl
  | cons line rest ih =>
    intro st cur
    by_cases h1 : startsL extinfTag (pyStrip line) = true
    · simp only [List.foldl_cons, lineStep, parseLines, h1, if_true]
      exact ih st (some (pyStrip line))
    · cases cur with
      | none =>
        simp only [List.foldl_cons, lineStep, parseLines, h1, if_false, Bool.false_eq_true]
        exact ih st none
      | some e =>
        by_cases h2 : urlStart (pyStrip line) = true
        · simp only [List.foldl_cons, lineStep, parseLines, h1, h2, if_true, if_false,
            Bool.false_eq_true]
          have : bucketAll st ((e, pyStrip line) :: parseLines none rest)
              = bucketAll (closeOut st e (pyStrip line)) (parseLines none rest) := rfl
          rw [this]
          exact ih (closeOut st e (pyStrip line)) none
        · by_cases h3 : (decide (pyStrip line ≠ []) && !startsL extTag (pyStrip line)) = true
          · simp only [List.foldl_cons, lineStep, parseLines, h1, h2, h3, if_true, if_false,
              Bool.false_eq_true]
            exact ih st none
          · simp only [List.foldl_cons, lineStep, parseLines, h1, h2, h3, if_false,
              Bool.false_eq_true]
            exact ih st (some e)

theorem processSource_eq_bucket (st : MergeState) (lines : List PyStr) :
    processSource st lines = bucketAll st (parseSource lines) :=
  foldl_lineStep_fst lines st none

theorem foldl_processSource_eq (srcs : List (List PyStr)) :
    ∀ st : MergeState, srcs.foldl processSource st = bucketAll st (srcs.flatMap parseSource) := by
  induction srcs with
  | nil => intro st; rfl
  | cons s rest ih =>
    intro st
    simp only [List.foldl_cons, List.flatMap_cons]
    rw [ih (processSource st s), processSource_eq_bucket, bucketAll, bucketAll, bucketAll,
      ← List.foldl_append]

theorem runSources_eq_bucket (srcs : List (List PyStr)) :
    runSources srcs = bucketAll initState (arrivals srcs) :=
  foldl_processSource_eq srcs initState

/-! Section: Facts about the group dictionary -/

/-- Membership test for the group a pair is filed under. -/
def inGroup (g : PyStr) (p : StreamPair) : Bool :=
  extract_group_title p.1 = g

theorem lookupG_addToGroup (gs : List (PyStr × List StreamPair)) (g : PyStr) (p : StreamPair)
    (g' : PyStr) :
    lookupG (addToGroup gs g p) g' = if g = g' then lookupG gs g' ++ [p] else lookupG gs g' := by
  induction gs with
  | nil =>
    by_cases h : g = g' <;> simp [addToGroup, lookupG, List.find?_cons, h]
  | cons kv rest ih =>
    obtain ⟨k, l⟩ := kv
    by_cases hk : k = g
    · subst hk
      by_cases h : k = g' <;> simp [addToGroup, lookupG, List.find?_cons, h]
    · by_cases h : k = g'
      · subst h
        have hne : ¬ g = k := fun hc => hk hc.symm
        simp [addToGroup, lookupG, List.find?_cons, hk, hne]
      · simp only [addToGroup, if_neg hk]
        by_cases hgg : g = g'
        · subst hgg
          simpa [lookupG, List.find?_cons, h] using ih
        · simpa [lookupG, List.find?_cons, h] using ih

theorem keys_addToGroup (gs : List (PyStr × List StreamPair)) (g : PyStr) (p : StreamPair) :
    (addToGroup gs g p).map Prod.fst =
      if g ∈ gs.map Prod.fst then gs.map Prod.fst else gs.map Prod.fst ++ [g] := by
  induction gs with
  | nil => simp [addToGroup]
  | cons kv rest ih =>
    obtain ⟨k, l⟩ := kv
    by_cases hk : k = g
    · subst hk
      simp [addToGroup]
    · have hne : ¬ g = k := fun hc => hk hc.symm
      by_cases hm : g ∈ rest.map Prod.fst <;>
        simp [addToGroup, hk, hne, hm, ih]

theorem nodup_keys_addToGroup (gs : List (PyStr × List StreamPair)) (g : PyStr) (p : StreamPair)
    (h : (gs.map Prod.fst).Nodup) : ((addToGroup gs g p).map Prod.fst).Nodup := by
  rw [keys_addToGroup]
  by_cases hm : g ∈ gs.map Prod.fst
  · simpa [hm] using h
  · simp [hm, List.nodup_append, h, List.disjoint_singleton, hm]

theorem mem_keys_addToGroup (gs : List (PyStr × List StreamPair)) (g : PyStr) (p : StreamPair)
    (g' : PyStr) :
    g' ∈ (addToGroup gs g p).map Prod.fst ↔ g' ∈ gs.map Prod.fst ∨ g' = g := by
  rw [keys_addToGroup]
  by_cases hm : g ∈ gs.map Prod.fst
  · simp only [if_pos hm]
    constructor
    · exact fun h => Or.inl h
    · rintro (h | h)
      · exact h
      · exact h ▸ hm
  · simp [if_neg hm]

/-! Section: Characterization of the bucketed state -/

theorem eraseP_singleton (f : StreamPair → Bool) (p : StreamPair) :
    List.eraseP f [p] = if f p then [] else [p] := by
  simp [List.eraseP_cons]

theorem bucket_spec (A : List StreamPair) :
    (bucketAll initState A).pinned = firstPin A ∧
    (bucketAll initState A).total = A.length ∧
    ((bucketAll initState A).grouped.map Prod.fst).Nodup ∧
    (∀ g, lookupG (bucketAll initState A).grouped g = (residualOf A).filter (inGroup g)) ∧
    (∀ g ∈ (bucketAll initState A).grouped.map Prod.fst,
      ∃ p, p ∈ A ∧ extract_group_title p.1 = g) ∧
    (∀ p ∈ residualOf A, extract_group_title p.1 ∈ (bucketAll initState A).grouped.map Prod.fst)
    := by
  induction A using List.reverseRecOn with
  | nil =>
    refine ⟨rfl, rfl, List.nodup_nil, fun g => rfl, ?_, ?_⟩
    · intro g hg
      exact absurd hg (by simp [bucketAll, initState])
    · intro q hq
      exact absurd hq (by simp [residualOf])
  | append_singleton A p ih =>
    obtain ⟨hp, ht, hnd, hlk, hcov, hmem⟩ := ih
    have hb : bucketAll initState (A ++ [p]) = closeOutPair (bucketAll initState A) p := by
      simp [bucketAll, List.foldl_append]
    cases hfind : A.find? isPinPair with
    | none =>
      have hnotin : ∀ q ∈ A, ¬ isPinPair q = true := List.find?_eq_none.mp hfind
      have hresA : residualOf A = A := List.eraseP_of_forall_not hnotin
      have hpinA : (bucketAll initState A).pinned = [] := by
        rw [hp]; simp [firstPin, hfind]
      cases hpin : isPinPair p with
      | true =>
        -- first pin match: the pair goes to the pinned slot
        have hcond : (decide (extract_channel_name p.1 = pinName)
            && (bucketAll initState A).pinned.isEmpty) = true := by
          simp only [isPinPair] at hpin
          simp [hpinA, hpin]
        have hstep : bucketAll initState (A ++ [p]) =
            { bucketAll initState A with
              pinned := (bucketAll initState A).pinned ++ [(p.1, p.2)],
              total := (bucketAll initState A).total + 1 } := by
          rw [hb]; simp only [closeOutPair, closeOut, hcond, if_true]
        have hres : residualOf (A ++ [p]) = A := by
          rw [residualOf, List.eraseP_append_right _ hnotin, eraseP_singleton, if_pos hpin,
            List.append_nil]
        refine ⟨?_, ?_, ?_, ?_, ?_, ?_⟩
        · rw [hstep]; simp only [hpinA]
          rw [firstPin, List.find?_append, hfind]
          simp [List.find?_cons, hpin]
        · rw [hstep]; simp [ht]
        · rw [hstep]; exact hnd
        · intro g
          rw [hstep]
          simp only
          rw [hlk g, hres, hresA]
        · intro g hg
          rw [hstep] at hg
          obtain ⟨q, hq, hq2⟩ := hcov g hg
          exact ⟨q, List.mem_append_left _ hq, hq2⟩
        · intro q hq
          rw [hres] at hq
          rw [hstep]
          rw [← hresA] at hq
          exact hmem q hq
      | false =>
        -- no match: the pair is filed under its group
        have hcond : (decide (extract_channel_name p.1 = pinName)
            && (bucketAll initState A).pinned.isEmpty) = false := by
          simp only [isPinPair] at hpin
          simp [hpin]
        have hstep : bucketAll initState (A ++ [p]) =
            { bucketAll initState A with
              grouped := addToGroup (bucketAll initState A).grouped
                (extract_group_title p.1) (p.1, p.2),
              total := (bucketAll initState A).total + 1 } := by
          rw [hb]; simp only [closeOutPair, closeOut, hcond, if_false, Bool.false_eq_true]
        have hres : residualOf (A ++ [p]) = A ++ [p] := by
          rw [residualOf, List.eraseP_append_right _ hnotin, eraseP_singleton, if_neg]
          simp [hpin]
        refine ⟨?_, ?_, ?_, ?_, ?_, ?_⟩
        · rw [hstep]
          simp only [hp]
          rw [firstPin, firstPin, List.find?_append, hfind]
          simp [List.find?_cons, hpin]
        · rw [hstep]; simp [ht]
        · rw [hstep]; exact nodup_keys_addToGroup _ _ _ hnd
        · intro g
          rw [hstep]
          simp only
          rw [lookupG_addToGroup, hres, List.filter_append, hlk g, hresA]
          by_cases hg : extract_group_title p.1 = g
          · simp [hg, List.filter, inGroup]
          · simp [hg, List.filter, inGroup]
        · intro g hg
          rw [hstep] at hg
          simp only at hg
          rcases (mem_keys_addToGroup _ _ _ _).mp hg with h | h
          · obtain ⟨q, hq, hq2⟩ := hcov g h
            exact ⟨q, List.mem_append_left _ hq, hq2⟩
          · exact ⟨p, List.mem_append_right _ (List.mem_singleton_self p), h.symm⟩
        · intro q hq
          rw [hres] at hq
          rw [hstep]
          simp only
          rcases List.mem_append.mp hq with h | h
          · rw [← hresA] at h
            exact (mem_keys_addToGroup _ _ _ _).mpr (Or.inl (hmem q h))
          · rw [List.mem_singleton.mp h]
            exact (mem_keys_addToGroup _ _ _ _).mpr (Or.inr rfl)
    | some q =>
      have hqpin : isPinPair q = true := List.find?_some hfind
      have hqmem : q ∈ A := List.mem_of_find?_eq_some hfind
      have hpinA : (bucketAll initState A).pinned = [q] := by
        rw [hp]; simp [firstPin, hfind]
      have hcond : (decide (extract_channel_name p.1 = pinName)
          && (bucketAll initState A).pinned.isEmpty) = false := by
        simp [hpinA]
      have hstep : bucketAll initState (A ++ [p]) =
          { bucketAll initState A with
            grouped := addToGroup (bucketAll initState A).grouped
              (extract_group_title p.1) (p.1, p.2),
            total := (bucketAll initState A).total + 1 } := by
        rw [hb]; simp only [closeOutPair, closeOut, hcond, if_false, Bool.false_eq_true]
      have hres : residualOf (A ++ [p]) = residualOf A ++ [p] :=
        List.eraseP_append_left hqpin _ hqmem
      refine ⟨?_, ?_, ?_, ?_, ?_, ?_⟩
      · rw [hstep]
        simp only [hp]
        rw [firstPin, firstPin, List.find?_append, hfind]
        rfl
      · rw [hstep]; simp [ht]
      · rw [hstep]; exact nodup_keys_addToGroup _ _ _ hnd
      · intro g
        rw [hstep]
        simp only
        rw [lookupG_addToGroup, hres, List.filter_append, hlk g]
        by_cases hg : extract_group_title p.1 = g
        · simp [hg, List.filter, inGroup]
        · simp [hg, List.filter, inGroup]
      · intro g hg
        rw [hstep] at hg
        simp only at hg
        rcases (mem_keys_addToGroup _ _ _ _).mp hg with h | h
        · obtain ⟨q2, hq2, hq3⟩ := hcov g h
          exact ⟨q2, List.mem_append_left _ hq2, hq3⟩
        · exact ⟨p, List.mem_append_right _ (List.mem_singleton_self p), h.symm⟩
      · intro q2 hq2
        rw [hres] at hq2
        rw [hstep]
        simp only
        rcases List.mem_append.mp hq2 with h | h
        · exact (mem_keys_addToGroup _ _ _ _).mpr (Or.inl (hmem q2 h))
        · rw [List.mem_singleton.mp h]
          exact (mem_keys_addToGroup _ _ _ _).mpr (Or.inr rfl)

/-! Section: The sort used on group labels -/

theorem listLe_total (a : PyStr) : ∀ b : PyStr, listLe a b = true ∨ listLe b a = true := by
  induction a with
  | nil => intro b; exact Or.inl rfl
  | cons x xs ih =>
    intro b
    cases b with
    | nil => exact Or.inr rfl
    | cons y ys =>
      by_cases hxy : x = y
      · subst hxy
        rcases ih ys with h | h
        · exact Or.inl (by simp [listLe, h])
        · exact Or.inr (by simp [listLe, h])
      · rcases lt_trichotomy x y with h | h | h
        · exact Or.inl (by simp [listLe, hxy, h])
        · exact absurd h hxy
        · have hyx : ¬ y = x := fun hc => hxy hc.symm
          exact Or.inr (by simp [listLe, hyx, h])

theorem listLe_trans {a b c : PyStr} (h1 : listLe a b = true) (h2 : listLe b c = true) :
    listLe a c = true := by
  induction a generalizing b c with
  | nil => rfl
  | cons x xs ih =>
    cases b with
    | nil => simp [listLe] at h1
    | cons y ys =>
      cases c with
      | nil => simp [listLe] at h2
      | cons z zs =>
        by_cases hxy : x = y
        · subst hxy
          rw [listLe, if_pos rfl] at h1
          by_cases hyz : x = z
          · subst hyz
            rw [listLe, if_pos rfl] at h2 ⊢
            exact ih h1 h2
          · rw [listLe, if_neg hyz] at h2 ⊢
            exact h2
        · rw [listLe, if_neg hxy, decide_eq_true_eq] at h1
          by_cases hyz : y = z
          · subst hyz
            have hxz : ¬ x = y := hxy
            rw [listLe, if_neg hxz, decide_eq_true_eq]
            exact h1
          · rw [listLe, if_neg hyz, decide_eq_true_eq] at h2
            have hlt : x < z := lt_trans h1 h2
            rw [listLe, if_neg (ne_of_lt hlt), decide_eq_true_eq]
            exact hlt

theorem insertSorted_perm (x : PyStr) (l : List PyStr) :
    (insertSorted x l).Perm (x :: l) := by
  induction l with
  | nil => exact List.Perm.refl _
  | cons y ys ih =>
    by_cases hxy : listLe x y = true
    · rw [insertSorted, if_pos hxy]
    · rw [insertSorted, if_neg hxy]
      exact (ih.cons y).trans (List.Perm.swap x y ys)

theorem pairwise_insertSorted (x : PyStr) (l : List PyStr)
    (h : l.Pairwise (fun a b => listLe a b = true)) :
    (insertSorted x l).Pairwise (fun a b => listLe a b = true) := by
  induction l with
  | nil => simp [insertSorted]
  | cons y ys ih =>
    rw [List.pairwise_cons] at h
    obtain ⟨hy, hys⟩ := h
    by_cases hxy : listLe x y = true
    · rw [insertSorted, if_pos hxy]
      refine List.Pairwise.cons ?_ (List.Pairwise.cons hy hys)
      intro b hb
      rcases List.mem_cons.mp hb with rfl | hb
      · exact hxy
      · exact listLe_trans hxy (hy b hb)
    · rw [insertSorted, if_neg hxy]
      have hyx : listLe y x = true := (listLe_total x y).resolve_left hxy
      refine List.Pairwise.cons ?_ (ih hys)
      intro b hb
      have hmem := (insertSorted_perm x ys).mem_iff.mp hb
      rcases List.mem_cons.mp hmem with rfl | hb2
      · exact hyx
      · exact hy b hb2

theorem sortStr_perm (l : List PyStr) : (sortStr l).Perm l := by
  induction l with
  | nil => exact List.Perm.refl _
  | cons x xs ih =>
    rw [sortStr, List.foldr_cons]
    exact (insertSorted_perm x (sortStr xs)).trans (ih.cons x)

theorem sortStr_pairwise (l : List PyStr) :
    (sortStr l).Pairwise (fun a b => listLe a b = true) := by
  induction l with
  | nil => exact List.Pairwise.nil
  | cons x xs ih => exact pairwise_insertSorted x (sortStr xs) ih

/-! Section: Partition of the residual arrivals over the group keys -/

theorem flatMap_congr_mem {α β : Type} {l : List α} {f g : α → List β}
    (h : ∀ x ∈ l, f x = g x) : l.flatMap f = l.flatMap g := by
  induction l with
  | nil => rfl
  | cons x xs ih =>
    rw [List.flatMap_cons, List.flatMap_cons, h x (List.mem_cons_self x xs),
      ih (fun y hy => h y (List.mem_cons_of_mem x hy))]

theorem flatMap_filter_perm :
    ∀ (ks : List PyStr) (R : List StreamPair), ks.Nodup →
      (∀ p ∈ R, extract_group_title p.1 ∈ ks) →
      (ks.flatMap (fun g => R.filter (inGroup g))).Perm R := by
  intro ks
  induction ks with
  | nil =>
    intro R _ hcov
    cases R with
    | nil => exact List.Perm.refl _
    | cons r rs => exact absurd (hcov r (List.mem_cons_self r rs)) (by simp)
  | cons g ks ih =>
    intro R hnd hcov
    rw [List.nodup_cons] at hnd
    rw [List.flatMap_cons]
    have hcov2 : ∀ p ∈ R.filter (fun x => !inGroup g x), extract_group_title p.1 ∈ ks := by
      intro p hp
      rw [List.mem_filter] at hp
      rcases List.mem_cons.mp (hcov p hp.1) with h | h
      · exfalso
        have : inGroup g p = true := by simp [inGroup, h]
        simp [this] at hp
      · exact h
    have hih := ih (R.filter (fun x => !inGroup g x)) hnd.2 hcov2
    have heq : ∀ g' ∈ ks,
        R.filter (inGroup g') = (R.filter (fun x => !inGroup g x)).filter (inGroup g') := by
      intro g' hg'
      rw [List.filter_filter]
      refine (List.filter_congr ?_).symm
      intro p _
      by_cases hpg : inGroup g' p = true
      · have hne : inGroup g p = false := by
          simp only [inGroup, decide_eq_true_eq] at hpg
          simp only [inGroup, decide_eq_false_iff_not]
          rw [hpg]
          intro hc
          exact hnd.1 (hc ▸ hg')
        simp [hpg, hne]
      · rw [Bool.not_eq_true] at hpg
        simp [hpg]
    rw [flatMap_congr_mem heq]
    exact ((List.Perm.append_left _ hih).trans (List.filter_append_perm (inGroup g) R))

theorem firstPin_append_residual_perm (A : List StreamPair) :
    (firstPin A ++ residualOf A).Perm A := by
  cases hfind : A.find? isPinPair with
  | none =>
    have hnotin := List.find?_eq_none.mp hfind
    rw [firstPin, hfind, residualOf, List.eraseP_of_forall_not hnotin, List.nil_append]
  | some q =>
    have hq := List.find?_some hfind
    have hqmem := List.mem_of_find?_eq_some hfind
    obtain ⟨a, l1, l2, hnot, ha, hA, hE⟩ := List.exists_of_eraseP hqmem hq
    have hqa : q = a := by
      have h1 : l1.find? isPinPair = none := List.find?_eq_none.mpr hnot
      rw [hA, List.find?_append, h1] at hfind
      simp [List.find?_cons, ha] at hfind
      exact hfind.symm
    rw [firstPin, hfind, residualOf, hE, hqa, hA]
    show (a :: (l1 ++ l2)).Perm (l1 ++ a :: l2)
    exact List.perm_middle.symm

/-! Section: Claims C1, C3, C8, C9: the merge policy -/

/-- C1 (amended): the program performs no deduplication at all — the output
entry sequence is a permutation of the full arrival sequence, so every
accepted entry is retained, entries sharing an identical stream URI
included; nothing is dropped and no dedupe switch exists. -/
theorem c1_output_is_permutation_of_arrivals (srcs : List (List PyStr)) :
    (outputPairs (runSources srcs)).Perm (arrivals srcs) := by
  obtain ⟨hp, ht, hnd, hlk, hcov, hmem⟩ := bucket_spec (arrivals srcs)
  rw [runSources_eq_bucket, outputPairs, hp]
  have hfun : lookupG (bucketAll initState (arrivals srcs)).grouped
      = fun g => (residualOf (arrivals srcs)).filter (inGroup g) := funext hlk
  rw [hfun]
  have h1 : ((sortStr ((bucketAll initState (arrivals srcs)).grouped.map Prod.fst)).flatMap
        (fun g => (residualOf (arrivals srcs)).filter (inGroup g))).Perm
      (((bucketAll initState (arrivals srcs)).grouped.map Prod.fst).flatMap
        (fun g => (residualOf (arrivals srcs)).filter (inGroup g))) :=
    (sortStr_perm _).flatMap_right _
  have h2 := flatMap_filter_perm ((bucketAll initState (arrivals srcs)).grouped.map Prod.fst)
    (residualOf (arrivals srcs)) hnd hmem
  exact ((List.Perm.append_left _ (h1.trans h2)).trans
    (firstPin_append_residual_perm (arrivals srcs)))

/-- C1 counterexample to the claim as stated: the same stream URI accepted
twice appears twice among the output entries. -/
theorem c1_dedupe_counterexample :
    List.countP (fun p => decide (p.2 = ("http://x/1".data))) (outputPairs (runSources exDupUri))
      = 2 := by
  decide

/-- C3 (amended): the output entry order is the pinned entry (if any) first,
then the groups with labels in ascending lexicographic order, and within each
group the entries in arrival (source) order — the group members are the
arrival-ordered residual arrivals with that label, not sorted by display
name. -/
theorem c3_pinned_then_sorted_groups_arrival_order (srcs : List (List PyStr)) :
    (sortStr ((runSources srcs).grouped.map Prod.fst)).Pairwise
        (fun a b => listLe a b = true) ∧
    outputPairs (runSources srcs) =
      firstPin (arrivals srcs)
        ++ (sortStr ((runSources srcs).grouped.map Prod.fst)).flatMap
            (fun g => (residualOf (arrivals srcs)).filter (inGroup g)) := by
  obtain ⟨hp, ht, hnd, hlk, hcov, hmem⟩ := bucket_spec (arrivals srcs)
  constructor
  · exact sortStr_pairwise _
  · rw [runSources_eq_bucket, outputPairs, hp]
    have hfun : lookupG (bucketAll initState (arrivals srcs)).grouped
        = fun g => (residualOf (arrivals srcs)).filter (inGroup g) := funext hlk
    rw [hfun]

/-- C3 counterexample to the claim as stated: inside the group `News` the
entries keep arrival order `B`, `A`, not case-sensitive display-name order. -/
theorem c3_group_sort_counterexample :
    ((lookupG (runSources exNewsGroup).grouped ("News".data)).map
        (fun p => extract_channel_name p.1)) = [("B".data), ("A".data)] ∧
      listLe ("B".data) ("A".data) = false := by
  decide

/-- C8 (amended): when some arrival matches the pinned display name, the
first such arrival is the sole pinned entry and it is the first output
entry; later matching arrivals are filed as ordinary grouped entries and so
also appear in the output. -/
theorem c8_first_match_pinned_first (srcs : List (List PyStr)) (p : StreamPair)
    (h : (arrivals srcs).find? isPinPair = some p) :
    (runSources srcs).pinned = [p] ∧ (outputPairs (runSources srcs)).head? = some p := by
  have hp := (bucket_spec (arrivals srcs)).1
  rw [runSources_eq_bucket]
  have hpin : (bucketAll initState (arrivals srcs)).pinned = [p] := by
    rw [hp, firstPin, h]
  exact ⟨hpin, by rw [outputPairs, hpin]; rfl⟩

/-- C8 counterexample to the claim as stated: two arrivals with the pinned
display name give two output entries with that name, not exactly one. -/
theorem c8_pin_duplicate_counterexample :
    List.countP isPinPair (outputPairs (runSources exTwoPins)) = 2 := by
  decide

/-- C8 witness: the pin theorem at a source matching the pin name twice. -/
theorem c8_first_match_pinned_first_witness :
    (runSources exTwoPins).pinned
        = [(("#EXTINF:-1,Colors Marathi HD".data), ("http://x/1".data))] ∧
      (outputPairs (runSources exTwoPins)).head?
        = some (("#EXTINF:-1,Colors Marathi HD".data), ("http://x/1".data)) :=
  c8_first_match_pinned_first exTwoPins
    (("#EXTINF:-1,Colors Marathi HD".data), ("http://x/1".data)) (by decide)

/-- C9: the output document is withheld exactly when the run produced zero
entries — the file is written if and only if at least one entry was accepted
(a failed fetch contributes no lines, hence no entries). -/
theorem c9_write_gate (srcs : List (List PyStr)) :
    writeOutput srcs = none ↔ arrivals srcs = [] := by
  have ht := (bucket_spec (arrivals srcs)).2.1
  rw [writeOutput]
  simp only [runSources_eq_bucket, ht]
  constructor
  · intro h
    by_cases hl : (arrivals srcs).length > 0
    · rw [if_pos hl] at h
      exact absurd h (by simp)
    · exact List.length_eq_zero.mp (by omega)
  · intro h
    rw [if_neg (by simp [h])]

/-! Section: Line-splitting machinery for the written document -/

theorem mem_pyStrip {c : Char} {s : PyStr} (h : c ∈ pyStrip s) : c ∈ s := by
  rw [pyStrip, List.mem_reverse] at h
  have h2 := (List.dropWhile_sublist pySpace).subset h
  rw [List.mem_reverse] at h2
  exact (List.dropWhile_sublist pySpace).subset h2

theorem splitNlL_ne_nil (s : PyStr) : splitNlL s ≠ [] := by
  induction s with
  | nil => simp [splitNlL]
  | cons c t ih =>
    rw [splitNlL]
    by_cases hc : c = '\n'
    · simp [hc]
    · simp only [if_neg hc]
      cases h : splitNlL t with
      | nil => simp
      | cons a r => simp

theorem splitNlL_noNl {p : PyStr} (h : ('\n' : Char) ∉ p) : splitNlL p = [p] := by
  induction p with
  | nil => rfl
  | cons c t ih =>
    rw [List.mem_cons, not_or] at h
    have hc : ¬ c = '\n' := fun hc => h.1 hc.symm
    rw [splitNlL, if_neg hc, ih h.2]

theorem splitNlL_append_nl (p r : PyStr) :
    splitNlL (p ++ '\n' :: r) = splitNlL p ++ splitNlL r := by
  induction p with
  | nil => rfl
  | cons c t ih =>
    rw [List.cons_append, splitNlL, splitNlL]
    by_cases hc : c = '\n'
    · rw [if_pos hc, if_pos hc, ih, List.cons_append]
    · rw [if_neg hc, if_neg hc, ih]
      cases h : splitNlL t with
      | nil => exact absurd h (splitNlL_ne_nil t)
      | cons a rest => rfl

theorem pyJoin_split (parts : List PyStr) (h : parts ≠ []) :
    splitNlL (pyJoinNl parts ++ ['\n']) = parts.flatMap splitNlL ++ [[]] := by
  induction parts with
  | nil => exact absurd rfl h
  | cons p ps ih =>
    cases ps with
    | nil =>
      show splitNlL (p ++ '\n' :: []) = (splitNlL p ++ []) ++ [[]]
      rw [splitNlL_append_nl, List.append_nil]
      rfl
    | cons q qs =>
      show splitNlL ((p ++ '\n' :: pyJoinNl (q :: qs)) ++ ['\n'])
        = (splitNlL p ++ (q :: qs).flatMap splitNlL) ++ [[]]
      rw [List.append_assoc, List.cons_append, splitNlL_append_nl,
        ih (by simp), List.append_assoc]

theorem digitChar_ne_nl {d : Nat} (h : d < 10) : digitChar d ≠ '\n' := by
  interval_cases d <;> decide

theorem natStrGo_not_nl : ∀ (fuel n : Nat), ('\n' : Char) ∉ natStrGo fuel n := by
  intro fuel
  induction fuel with
  | zero => intro n h; simp [natStrGo] at h
  | succ fuel ih =>
    intro n h
    rw [natStrGo] at h
    by_cases hn : n < 10
    · rw [if_pos hn] at h
      exact digitChar_ne_nl hn (List.mem_singleton.mp h).symm
    · rw [if_neg hn] at h
      rcases List.mem_append.mp h with h2 | h2
      · exact ih _ h2
      · exact digitChar_ne_nl (Nat.mod_lt _ (by omega)) (List.mem_singleton.mp h2).symm

theorem natStr_not_nl (n : Nat) : ('\n' : Char) ∉ natStr n :=
  natStrGo_not_nl (n + 1) n

/-! Section: Every accepted pair is well formed -/

/-- A pair accepted by the state machine: the metadata line carries the
`#EXTINF` tag, the URI line carries a stream scheme, and neither holds a
line break (source lines are produced by `splitlines`). -/
def goodPair (p : StreamPair) : Prop :=
  startsL extinfTag p.1 = true ∧ ('\n' : Char) ∉ p.1 ∧
    urlStart p.2 = true ∧ ('\n' : Char) ∉ p.2

theorem parseLines_good : ∀ (lines : List PyStr) (cur : Option PyStr),
    (∀ l ∈ lines, ('\n' : Char) ∉ l) →
    (∀ e, cur = some e → startsL extinfTag e = true ∧ ('\n' : Char) ∉ e) →
    ∀ p ∈ parseLines cur lines, goodPair p := by
  intro lines
  induction lines with
  | nil => intro cur _ _ p hp; simp [parseLines] at hp
  | cons line rest ih =>
    intro cur hnl hcur p hp
    have hnlrest : ∀ l ∈ rest, ('\n' : Char) ∉ l :=
      fun l hl => hnl l (List.mem_cons_of_mem line hl)
    have hnlline : ('\n' : Char) ∉ pyStrip line :=
      fun hc => hnl line (List.mem_cons_self line rest) (mem_pyStrip hc)
    simp only [parseLines] at hp
    by_cases h1 : startsL extinfTag (pyStrip line) = true
    · rw [if_pos h1] at hp
      exact ih (some (pyStrip line)) hnlrest
        (fun e he => by
          rw [Option.some_inj] at he
          exact he ▸ ⟨h1, hnlline⟩) p hp
    · rw [if_neg h1] at hp
      cases cur with
      | none =>
        have hp2 : p ∈ parseLines none rest := hp
        exact ih none hnlrest (fun e he => nomatch he) p hp2
      | some e =>
        have hp2 : p ∈ (if urlStart (pyStrip line) = true
            then (e, pyStrip line) :: parseLines none rest
            else if (decide (pyStrip line ≠ []) && !startsL extTag (pyStrip line)) = true
              then parseLines none rest else parseLines (some e) rest) := hp
        by_cases h2 : urlStart (pyStrip line) = true
        · rw [if_pos h2] at hp2
          rcases List.mem_cons.mp hp2 with rfl | hp3
          · obtain ⟨he1, he2⟩ := hcur e rfl
            exact ⟨he1, he2, h2, hnlline⟩
          · exact ih none hnlrest (fun e he => nomatch he) p hp3
        · rw [if_neg h2] at hp2
          by_cases h3 : (decide (pyStrip line ≠ []) && !startsL extTag (pyStrip line)) = true
          · rw [if_pos h3] at hp2
            exact ih none hnlrest (fun e he => nomatch he) p hp2
          · rw [if_neg h3] at hp2
            exact ih (some e) hnlrest hcur p hp2

theorem arrivals_good (srcs : List (List PyStr))
    (h : ∀ src ∈ srcs, ∀ l ∈ src, ('\n' : Char) ∉ l) :
    ∀ p ∈ arrivals srcs, goodPair p := by
  intro p hp
  rw [arrivals, List.mem_flatMap] at hp
  obtain ⟨src, hsrc, hp2⟩ := hp
  exact parseLines_good src none (h src hsrc) (fun e he => nomatch he) p hp2

/-! Section: Group labels hold no line break -/

theorem mem_findAfter : ∀ {s : PyStr} {pat r : PyStr}, findAfter pat s = some r →
    ∀ c ∈ r, c ∈ s := by
  intro s
  induction s with
  | nil =>
    intro pat r h c hc
    rw [findAfter] at h
    by_cases hs : startsL pat [] = true
    · rw [if_pos hs, Option.some_inj] at h
      rw [← h] at hc
      exact absurd hc (List.not_mem_nil c)
    · rw [if_neg hs] at h
      exact nomatch h
  | cons c0 t ih =>
    intro pat r h c hc
    rw [findAfter] at h
    by_cases hs : startsL pat (c0 :: t) = true
    · rw [if_pos hs, Option.some_inj] at h
      exact List.drop_subset _ _ (h ▸ hc)
    · rw [if_neg hs] at h
      exact List.mem_cons_of_mem c0 (ih h c hc)

theorem mem_upToQuote : ∀ {s r : PyStr}, upToQuote s = some r → ∀ c ∈ r, c ∈ s := by
  intro s
  induction s with
  | nil => intro r h; exact nomatch h
  | cons c0 t ih =>
    intro r h c hc
    by_cases h0 : c0 = '"'
    · subst h0
      rw [upToQuote, Option.some_inj] at h
      rw [← h] at hc
      exact absurd hc (List.not_mem_nil c)
    · have hq : upToQuote (c0 :: t) = (upToQuote t).map (c0 :: ·) := by
        rw [upToQuote.eq_def]
        cases t2 : c0 :: t with
        | nil => exact nomatch t2
        | cons a b =>
          rw [List.cons.injEq] at t2
          obtain ⟨rfl, rfl⟩ := t2
          simp [h0]
      rw [hq] at h
      cases hut : upToQuote t with
      | none => rw [hut] at h; exact nomatch h
      | some r2 =>
        rw [hut] at h
        have h2 : c0 :: r2 = r := Option.some_inj.mp h
        rw [← h2, List.mem_cons] at hc
        rcases hc with rfl | hc2
        · exact List.mem_cons_self c t
        · exact List.mem_cons_of_mem c0 (ih hut c hc2)

theorem noNl_group_title {e : PyStr} (h : ('\n' : Char) ∉ e) :
    ('\n' : Char) ∉ extract_group_title e := by
  rw [extract_group_title]
  cases hf : findAfter (("group-title=\"".data)) e with
  | none => decide
  | some rest =>
    show ('\n' : Char) ∉ (match upToQuote rest with
      | none => defaultGroup
      | some content => if pyStrip content = [] then defaultGroup else pyStrip content)
    cases hq : upToQuote rest with
    | none => decide
    | some content =>
      show ('\n' : Char) ∉ (if pyStrip content = [] then defaultGroup else pyStrip content)
      by_cases ht : pyStrip content = []
      · rw [if_pos ht]; decide
      · rw [if_neg ht]
        intro hc
        exact h (mem_findAfter hf _ (mem_upToQuote hq _ (mem_pyStrip hc)))

/-- Well-formedness of a merge state reached from `splitlines` input: every
stored pair is good and every group label is free of line breaks. -/
def stateGood (st : MergeState) : Prop :=
  (∀ p ∈ st.pinned, goodPair p) ∧
  (∀ g, ∀ p ∈ lookupG st.grouped g, goodPair p) ∧
  (∀ g ∈ st.grouped.map Prod.fst, ('\n' : Char) ∉ g)

theorem runSources_good (srcs : List (List PyStr))
    (hnl : ∀ src ∈ srcs, ∀ l ∈ src, ('\n' : Char) ∉ l) :
    stateGood (runSources srcs) := by
  have hag := arrivals_good srcs hnl
  obtain ⟨hp, ht, hnd, hlk, hcov, hmem⟩ := bucket_spec (arrivals srcs)
  rw [runSources_eq_bucket]
  refine ⟨?_, ?_, ?_⟩
  · intro p hpm
    rw [hp, firstPin] at hpm
    cases hfind : (arrivals srcs).find? isPinPair with
    | none => rw [hfind] at hpm; exact absurd hpm (List.not_mem_nil p)
    | some q =>
      rw [hfind] at hpm
      rw [List.mem_singleton.mp hpm]
      exact hag q (List.mem_of_find?_eq_some hfind)
  · intro g p hpm
    rw [hlk g, List.mem_filter] at hpm
    exact hag p ((List.eraseP_sublist _).subset hpm.1)
  · intro g hg
    obtain ⟨q, hq, hq2⟩ := hcov g hg
    exact hq2 ▸ noNl_group_title (hag q hq).2.1

theorem splitNlL_groupMarker (g : PyStr) (n : Nat) (hg : ('\n' : Char) ∉ g) :
    splitNlL (groupMarker g n) = [[], (groupMarker g n).drop 1] := by
  have hlit : ("\n# --- GROUP START: ".data) = '\n' :: ("# --- GROUP START: ".data) := by
    decide
  have hshape : groupMarker g n = '\n' :: (("# --- GROUP START: ".data) ++ g ++ (" (".data)
      ++ natStr n ++ (" Streams) ---".data)) := by
    rw [groupMarker, hlit]
    simp [List.append_assoc]
  have htail : ('\n' : Char) ∉ (("# --- GROUP START: ".data) ++ g ++ (" (".data)
      ++ natStr n ++ (" Streams) ---".data)) := by
    intro hc
    rcases List.mem_append.mp hc with hc2 | hc2
    · rcases List.mem_append.mp hc2 with hc3 | hc3
      · rcases List.mem_append.mp hc3 with hc4 | hc4
        · rcases List.mem_append.mp hc4 with hc5 | hc5
          · exact absurd hc5 (by decide)
          · exact hg hc5
        · exact absurd hc4 (by decide)
      · exact natStr_not_nl n hc3
    · exact absurd hc2 (by decide)
  rw [hshape, splitNlL, if_pos rfl, splitNlL_noNl htail]
  rfl

theorem flatMap_splitNl_pairs (pairs : List StreamPair) (h : ∀ p ∈ pairs, goodPair p) :
    ((pairs.flatMap (fun p => [p.1, p.2])).flatMap splitNlL)
      = pairs.flatMap (fun p => [p.1, p.2]) := by
  induction pairs with
  | nil => rfl
  | cons p ps ih =>
    have hp := h p (List.mem_cons_self p ps)
    rw [List.flatMap_cons, List.flatMap_append,
      ih (fun q hq => h q (List.mem_cons_of_mem p hq))]
    have : ([p.1, p.2].flatMap splitNlL) = [p.1, p.2] := by
      simp only [List.flatMap_cons, List.flatMap_nil,
        splitNlL_noNl hp.2.1, splitNlL_noNl hp.2.2.2]
      rfl
    rw [this]

theorem finalOutput_ne_nil (st : MergeState) : finalOutput st ≠ [] := by
  rw [finalOutput]
  exact List.cons_ne_nil _ _

theorem docLines_spec_of_good (st : MergeState) (hg : stateGood st) :
    docLines st = docLinesSpec st := by
  obtain ⟨hpin, hlkg, hkeys⟩ := hg
  rw [docLines, documentOf, pyJoin_split _ (finalOutput_ne_nil st), docLinesSpec]
  congr 1
  rw [finalOutput, List.flatMap_cons, splitNlL_noNl (by decide : ('\n' : Char) ∉ hdrTag),
    List.flatMap_append, List.singleton_append]
  congr 1
  congr 1
  · cases hps : st.pinned with
    | nil => rfl
    | cons pu rest =>
      obtain ⟨e, u⟩ := pu
      have hpe : goodPair (e, u) := hpin (e, u) (by rw [hps]; exact List.mem_cons_self _ _)
      simp only [List.flatMap_cons, List.flatMap_nil,
        (by decide : splitNlL pinMarker = [[], pinMarker.drop 1]),
        splitNlL_noNl hpe.2.1, splitNlL_noNl hpe.2.2.2]
      rfl
  · rw [List.flatMap_assoc]
    apply flatMap_congr_mem
    intro g hgmem
    have hgk : g ∈ st.grouped.map Prod.fst := (sortStr_perm _).mem_iff.mp hgmem
    rw [List.flatMap_cons, splitNlL_groupMarker g _ (hkeys g hgk),
      flatMap_splitNl_pairs _ (hlkg g)]

/-! Section: The document ends in exactly one line break -/

theorem pyJoinNl_ne_nil {parts : List PyStr} (h0 : parts ≠ []) (h1 : ∀ p ∈ parts, p ≠ []) :
    pyJoinNl parts ≠ [] := by
  cases parts with
  | nil => exact absurd rfl h0
  | cons p ps =>
    cases ps with
    | nil => exact h1 p (List.mem_cons_self p [])
    | cons q qs =>
      show p ++ '\n' :: pyJoinNl (q :: qs) ≠ []
      simp

theorem pyJoinNl_last : ∀ (parts : List PyStr), parts ≠ [] →
    (∀ p ∈ parts, p ≠ [] ∧ p.getLast? ≠ some '\n') →
    (pyJoinNl parts).getLast? ≠ some '\n' := by
  intro parts
  induction parts with
  | nil => intro h _; exact absurd rfl h
  | cons p ps ih =>
    intro _ hall
    cases ps with
    | nil => exact (hall p (List.mem_cons_self p [])).2
    | cons q qs =>
      show (p ++ '\n' :: pyJoinNl (q :: qs)).getLast? ≠ some '\n'
      rw [List.getLast?_append]
      have hne : pyJoinNl (q :: qs) ≠ [] :=
        pyJoinNl_ne_nil (by simp) (fun r hr => (hall r (List.mem_cons_of_mem p hr)).1)
      have hih := ih (by simp) (fun r hr => hall r (List.mem_cons_of_mem p hr))
      cases hq : pyJoinNl (q :: qs) with
      | nil => exact absurd hq hne
      | cons x xs =>
        rw [hq] at hih
        obtain ⟨z, hz⟩ := Option.isSome_iff_exists.mp
          (List.getLast?_isSome.mpr (List.cons_ne_nil x xs))
        rw [List.getLast?_cons_cons, hz]
        rw [hz] at hih
        show (some z : Option Char) ≠ some '\n'
        exact hih

theorem nonempty_of_startsL {a : Char} {p s : PyStr} (h : startsL (a :: p) s = true) :
    s ≠ [] := by
  obtain ⟨t, ht⟩ := startsL_head h
  rw [ht]
  exact List.cons_ne_nil a t

theorem last_ne_nl_of_noNl {s : PyStr} (h : ('\n' : Char) ∉ s) :
    s.getLast? ≠ some '\n' :=
  fun hc => h (List.mem_of_mem_getLast? hc)

theorem urlStart_ne_nil {u : PyStr} (h : urlStart u = true) : u ≠ [] := by
  simp only [urlStart, Bool.or_eq_true] at h
  rcases h with (h | h) | h
  · exact nonempty_of_startsL (show startsL ('h' :: ("ttp://".data)) u = true from h)
  · exact nonempty_of_startsL (show startsL ('h' :: ("ttps://".data)) u = true from h)
  · exact nonempty_of_startsL (show startsL ('r' :: ("tsp://".data)) u = true from h)

theorem groupMarker_ne_nil (g : PyStr) (n : Nat) : groupMarker g n ≠ [] := by
  rw [groupMarker]
  simp

theorem groupMarker_last (g : PyStr) (n : Nat) :
    (groupMarker g n).getLast? = some '-' := by
  rw [groupMarker, List.getLast?_append,
    (by decide : ((" Streams) ---".data)).getLast? = some '-')]
  rfl

theorem finalOutput_parts_ok (st : MergeState) (hg : stateGood st) :
    ∀ p ∈ finalOutput st, p ≠ [] ∧ p.getLast? ≠ some '\n' := by
  obtain ⟨hpin, hlkg, hkeys⟩ := hg
  intro p hp
  rw [finalOutput] at hp
  rcases List.mem_cons.mp hp with rfl | hp2
  · exact ⟨by decide, by decide⟩
  rcases List.mem_append.mp hp2 with hp3 | hp3
  · cases hps : st.pinned with
    | nil => rw [hps] at hp3; exact absurd hp3 (List.not_mem_nil p)
    | cons pu rest =>
      obtain ⟨e, u⟩ := pu
      rw [hps] at hp3
      have hpe : goodPair (e, u) := hpin (e, u) (by rw [hps]; exact List.mem_cons_self _ _)
      rcases List.mem_cons.mp hp3 with rfl | hp4
      · exact ⟨by decide, by decide⟩
      rcases List.mem_cons.mp hp4 with rfl | hp5
      · exact ⟨nonempty_of_startsL (show startsL ('#' :: ("EXTINF".data)) p = true from hpe.1),
          last_ne_nl_of_noNl hpe.2.1⟩
      rcases List.mem_cons.mp hp5 with rfl | hp6
      · exact ⟨urlStart_ne_nil hpe.2.2.1, last_ne_nl_of_noNl hpe.2.2.2⟩
      · exact absurd hp6 (List.not_mem_nil p)
  · rw [List.mem_flatMap] at hp3
    obtain ⟨g, hgmem, hp4⟩ := hp3
    rcases List.mem_cons.mp hp4 with rfl | hp5
    · exact ⟨groupMarker_ne_nil g _, by rw [groupMarker_last]; decide⟩
    · rw [List.mem_flatMap] at hp5
      obtain ⟨q, hq, hp6⟩ := hp5
      have hgq : goodPair q := hlkg g q hq
      rcases List.mem_cons.mp hp6 with rfl | hp7
      · exact ⟨nonempty_of_startsL (show startsL ('#' :: ("EXTINF".data)) q.1 = true from hgq.1),
          last_ne_nl_of_noNl hgq.2.1⟩
      rcases List.mem_cons.mp hp7 with rfl | hp8
      · exact ⟨urlStart_ne_nil hgq.2.2.1, last_ne_nl_of_noNl hgq.2.2.2⟩
      · exact absurd hp8 (List.not_mem_nil p)

theorem trailing_of_good (st : MergeState) (hg : stateGood st) :
    ∃ t, documentOf st = t ++ ['\n'] ∧ t.getLast? ≠ some '\n' :=
  ⟨pyJoinNl (finalOutput st), rfl,
    pyJoinNl_last _ (finalOutput_ne_nil st) (finalOutput_parts_ok st hg)⟩

/-! Section: Claims C10 and C2: the serialized document -/

/-- C10 (amended): the document's lines are exactly the header, then — for
the pinned block and for each group in sorted label order — one blank line
followed by the section-marker comment and the block's metadata/URI lines,
and finally the empty segment of the single trailing line break; so a blank
line precedes every section marker (the generated portion is not blank-free),
while the document does end with exactly one trailing line break. -/
theorem c10_line_structure (srcs : List (List PyStr))
    (hnl : ∀ src ∈ srcs, ∀ l ∈ src, ('\n' : Char) ∉ l) :
    docLines (runSources srcs) = docLinesSpec (runSources srcs) ∧
      ∃ t, documentOf (runSources srcs) = t ++ ['\n'] ∧ t.getLast? ≠ some '\n' :=
  ⟨docLines_spec_of_good _ (runSources_good srcs hnl),
    trailing_of_good _ (runSources_good srcs hnl)⟩

/-- C10 counterexample to the claim as stated: a one-entry run yields a
document whose second line (inside the generated portion) is blank. -/
theorem c10_blank_line_counterexample :
    (docLines (runSources exOneEntry))[1]? = some [] ∧
      (docLines (runSources exOneEntry)).length = 6 := by
  decide

/-- C10 witness: the line-structure theorem at a concrete one-entry run. -/
theorem c10_line_structure_witness :
    docLines (runSources exOneEntry) = docLinesSpec (runSources exOneEntry) ∧
      ∃ t, documentOf (runSources exOneEntry) = t ++ ['\n'] ∧ t.getLast? ≠ some '\n' :=
  c10_line_structure exOneEntry (by decide)

/-- Test for a header line: a line beginning with the `#EXTM3U` tag. -/
def isHeader (l : PyStr) : Bool := startsL hdrTag l

theorem isHeader_extinf {e : PyStr} (h : startsL extinfTag e = true) : isHeader e = false := by
  by_contra hc
  rw [isHeader, Bool.not_eq_false] at hc
  exact absurd (startsL_unique h hc (by decide)) (by decide)

theorem isHeader_url {u : PyStr} (h : urlStart u = true) : isHeader u = false := by
  rw [isHeader]
  simp only [urlStart, Bool.or_eq_true] at h
  rcases h with (h | h) | h
  · exact head_clash (by decide) (by decide) (by decide) h
  · exact head_clash (by decide) (by decide) (by decide) h
  · exact head_clash (by decide) (by decide) (by decide) h

theorem isHeader_hashSpace (X : PyStr) : isHeader ('#' :: ' ' :: X) = false := by
  show startsL hdrTag ('#' :: ' ' :: X) = false
  have h1 : startsL hdrTag ('#' :: ' ' :: X)
      = (decide ('#' = '#') && (decide ('E' = ' ') && startsL (("XTM3U".data)) X)) := rfl
  rw [h1]
  simp

theorem groupMarker_tail_shape (g : PyStr) (n : Nat) :
    (groupMarker g n).drop 1 = '#' :: ' ' :: ((("--- GROUP START: ".data) ++ g ++ (" (".data)
      ++ natStr n ++ (" Streams) ---".data))) := by
  have hlit : ("\n# --- GROUP START: ".data)
      = '\n' :: '#' :: ' ' :: ("--- GROUP START: ".data) := by decide
  rw [groupMarker, hlit]
  simp [List.append_assoc]

theorem c2_spec_lines_not_header (st : MergeState) (hg : stateGood st) :
    ∀ l ∈ ((match st.pinned with
        | [] => ([] : List PyStr)
        | (e, u) :: _ => [[], pinMarker.drop 1, e, u])
      ++ (sortStr (st.grouped.map Prod.fst)).flatMap (fun g =>
          [[], (groupMarker g (lookupG st.grouped g).length).drop 1]
            ++ (lookupG st.grouped g).flatMap (fun p => [p.1, p.2]))),
      isHeader l = false := by
  obtain ⟨hpin, hlkg, hkeys⟩ := hg
  intro l hl
  rcases List.mem_append.mp hl with h1 | h1
  · cases hps : st.pinned with
    | nil => rw [hps] at h1; exact absurd h1 (List.not_mem_nil l)
    | cons pu rest =>
      obtain ⟨e, u⟩ := pu
      rw [hps] at h1
      have hpe : goodPair (e, u) := hpin (e, u) (by rw [hps]; exact List.mem_cons_self _ _)
      rcases List.mem_cons.mp h1 with rfl | h2
      · decide
      rcases List.mem_cons.mp h2 with rfl | h3
      · decide
      rcases List.mem_cons.mp h3 with rfl | h4
      · exact isHeader_extinf hpe.1
      rcases List.mem_cons.mp h4 with rfl | h5
      · exact isHeader_url hpe.2.2.1
      · exact absurd h5 (List.not_mem_nil l)
  · rw [List.mem_flatMap] at h1
    obtain ⟨g, hgmem, h2⟩ := h1
    rcases List.mem_cons.mp h2 with rfl | h3
    · decide
    rcases List.mem_cons.mp h3 with rfl | h4
    · rw [groupMarker_tail_shape]
      exact isHeader_hashSpace _
    · have h4b : l ∈ (lookupG st.grouped g).flatMap (fun p => [p.1, p.2]) := h4
      rw [List.mem_flatMap] at h4b
      obtain ⟨q, hq, h5⟩ := h4b
      have hgq : goodPair q := hlkg g q hq
      rcases List.mem_cons.mp h5 with rfl | h6
      · exact isHeader_extinf hgq.1
      rcases List.mem_cons.mp h6 with rfl | h7
      · exact isHeader_url hgq.2.2.1
      · exact absurd h7 (List.not_mem_nil l)

/-- C2: for every run on `splitlines`-shaped sources that produces at least
one Entry, the written document contains exactly one header line (a line
beginning with `#EXTM3U`), and it is the document's first line. -/
theorem c2_single_header_first (srcs : List (List PyStr))
    (hnl : ∀ src ∈ srcs, ∀ l ∈ src, ('\n' : Char) ∉ l)
    (_hne : arrivals srcs ≠ []) :
    (docLines (runSources srcs)).head? = some hdrTag ∧
      List.countP isHeader (docLines (runSources srcs)) = 1 := by
  have hg := runSources_good srcs hnl
  rw [docLines_spec_of_good _ hg, docLinesSpec]
  constructor
  · rfl
  · have h0 : List.countP isHeader
        ((match (runSources srcs).pinned with
          | [] => ([] : List PyStr)
          | (e, u) :: _ => [[], pinMarker.drop 1, e, u])
        ++ (sortStr ((runSources srcs).grouped.map Prod.fst)).flatMap (fun g =>
            [[], (groupMarker g (lookupG (runSources srcs).grouped g).length).drop 1]
              ++ (lookupG (runSources srcs).grouped g).flatMap (fun p => [p.1, p.2]))) = 0 :=
      List.countP_eq_zero.mpr
        (fun l hl => by simp [c2_spec_lines_not_header (runSources srcs) hg l hl])
    rw [List.countP_append, List.countP_cons, h0]
    simp only [List.countP_cons, List.countP_nil,
      (by decide : isHeader ([] : PyStr) = false),
      (by decide : isHeader hdrTag = true), Bool.false_eq_true, if_false, if_true]

/-- C2 witness: the header theorem at a concrete one-entry run. -/
theorem c2_single_header_first_witness :
    (docLines (runSources exOneEntry)).head? = some hdrTag ∧
      List.countP isHeader (docLines (runSources exOneEntry)) = 1 :=
  c2_single_header_first exOneEntry (by decide) (by decide)
